import Mathlib

/-!
Verification development for the truth-trick expression engine (src/main.js).

The JavaScript source is shallowly embedded below.  JavaScript arrays are
Lean lists, JavaScript values flowing through the evaluator are modelled by
`JSVal` (a string, a boolean, or `undefined`), and property lookups in the
object literals `otherSymbols`, `precedence`, `operations1`, `operations2`
and `conversion` are modelled by lookup functions keyed on the JavaScript
property-key string of the value (`jsKey`).  Functions that the source
writes with non-structural recursion (the recursive evaluator, the regex
scanners) are embedded with an explicit fuel argument; the fuel passed by
the wrappers always exceeds the input length, and fuel-irrelevance lemmas
below show the value is independent of the fuel once it is large enough.
-/

namespace TruthTrick

/-- Model of a JavaScript value appearing in the engine's arrays: a string
token, a boolean produced by the operations, or `undefined`. -/
inductive JSVal where
  | str : String → JSVal
  | bool : Bool → JSVal
  | undefined : JSVal
deriving DecidableEq, Repr

/-- The JavaScript property-key coercion of a value: strings are themselves,
booleans become "true"/"false", and `undefined` becomes "undefined". -/
def jsKey : JSVal → String
  | .str s => s
  | .bool b => if b then "true" else "false"
  | .undefined => "undefined"

/-- JavaScript truthiness of a `JSVal`: nonempty strings and `true` are
truthy, `undefined` is falsy. -/
def truthy : JSVal → Bool
  | .str s => !(s == "")
  | .bool b => b
  | .undefined => false

/-- Model of `operations1['¬'] = a => (!a)` (src/main.js line 62). -/
def jsNot (a : JSVal) : JSVal := .bool (!truthy a)

/-- Model of `(a, b) => (a && b)` (src/main.js line 67): JS `&&` returns the
first operand when it is falsy, the second otherwise. -/
def jsAnd (a b : JSVal) : JSVal := if truthy a then b else a

/-- Model of `(a, b) => (a || b)` (src/main.js line 68): JS `||` returns the
first operand when it is truthy, the second otherwise. -/
def jsOr (a b : JSVal) : JSVal := if truthy a then a else b

/-- Model of `(a, b) => (!a || b)` (src/main.js line 69): `!a` is a boolean,
so the result is `true` when `a` is falsy and `b` otherwise. -/
def jsImply (a b : JSVal) : JSVal := if truthy a then b else .bool true

/-- Model of `(a, b) => (a ? !b : b)` (src/main.js line 70). -/
def jsXor (a b : JSVal) : JSVal := if truthy a then .bool (!truthy b) else b

/-- JavaScript strict equality `===` restricted to the values that occur. -/
def jsStrictEq : JSVal → JSVal → Bool
  | .str a, .str b => a == b
  | .bool a, .bool b => a == b
  | .undefined, .undefined => true
  | _, _ => false

/-- Model of `(a, b) => (a === b)` (src/main.js line 71). -/
def jsXnor (a b : JSVal) : JSVal := .bool (jsStrictEq a b)

/-- Membership test of a key in the `operations2` object (src/main.js
lines 66-72). -/
def isOp2 (s : String) : Bool :=
  s == "∧" || s == "∨" || s == "→" || s == "⊕" || s == "≡"

/-- Dispatch of `operations2[last](a, b)` by key (src/main.js lines 66-72). -/
def applyOp2 (s : String) (a b : JSVal) : JSVal :=
  if s == "∧" then jsAnd a b
  else if s == "∨" then jsOr a b
  else if s == "→" then jsImply a b
  else if s == "⊕" then jsXor a b
  else jsXnor a b

/-- Lookup in the `conversion` object (src/main.js lines 75-80); its keys
are the property strings "0", "1", "false", "true". -/
def convLookup (s : String) : Option JSVal :=
  if s == "0" then some (.bool false)
  else if s == "1" then some (.bool true)
  else if s == "false" then some (.str "0")
  else if s == "true" then some (.str "1")
  else none

/-- Model of the expression `conversion[v]` for a value `v`: the lookup of
the coerced property key, `undefined` when absent. -/
def conversionVal (v : JSVal) : JSVal := (convLookup (jsKey v)).getD .undefined

/-- Whitespace removal, modelling `exp.replace(squeezeRegex, '')`
(src/main.js lines 31, 41) on the ASCII whitespace that can occur in the
expressions considered here. -/
def squeeze (l : List Char) : List Char :=
  l.filter (fun c => !(c == ' ' || c == '\t' || c == '\n' || c == '\r'))

/-- The `otherSymbols` object (src/main.js lines 12-28) in key-insertion
order, each key split into its first character and the rest so that keys
are nonempty by construction.  Note the source maps the words NOT and XOR
to '∨'. -/
def synonyms : List (Char × List Char × Char) :=
  [('.', [], '∧'), ('^', [], '∧'), ('&', [], '∧'), ('A', ['N', 'D'], '∧'),
   ('+', [], '∨'), ('|', [], '∨'), ('O', ['R'], '∨'), ('!', [], '¬'),
   ('N', ['O', 'T'], '∨'), ('⊻', [], '⊕'), ('X', ['O', 'R'], '∨'),
   ('>', [], '→'), ('=', [], '≡'), ('⊙', [], '≡'), ('X', ['N', 'O', 'R'], '≡')]

/-- First synonym key (in `otherSymbols` insertion order, which is the
alternation order of `replaceRegex`, src/main.js line 37) matching at the
head of the character list; returns the replacement character and the
length of the matched key. -/
def firstSyn : List (Char × List Char × Char) → List Char → Option (Char × Nat)
  | [], _ => none
  | (k, ks, rep) :: rest, l =>
    if l.take (ks.length + 1) == k :: ks then some (rep, ks.length + 1)
    else firstSyn rest l

/-- Fuelled left-to-right scan modelling the global replacement
`replace(replaceRegex, key => otherSymbols[key])` (src/main.js line 41):
at each position the leftmost match of the first listed key is replaced,
scanning resumes after it.  (The source regex also carries the `i` flag;
the inputs considered in the claims contain no lower-case synonym
spellings, for which the case-insensitive match would insert the string
"undefined".) -/
def replScanF : Nat → List Char → List Char
  | 0, _ => []
  | _ + 1, [] => []
  | f + 1, c :: cs =>
    match firstSyn synonyms (c :: cs) with
    | some (rep, len) => rep :: replScanF f ((c :: cs).drop len)
    | none => c :: replScanF f cs

/-- The normalized character stream of a raw input: whitespace squeezed,
then synonyms replaced (src/main.js line 41, first two steps). -/
def normChars (s : String) : List Char :=
  replScanF ((squeeze s.data).length + 1) (squeeze s.data)

/-- The normalized string (the Normalizer of the spec). -/
def normalize (s : String) : String := String.mk (normChars s)

/-- ASCII letter, the class `[A-Z]` with the `i` flag. -/
def isLetterA (c : Char) : Bool :=
  ('A' ≤ c && c ≤ 'Z') || ('a' ≤ c && c ≤ 'z')

/-- The digit class `[01]`. -/
def isBit (c : Char) : Bool := c == '0' || c == '1'

/-- JS word character `\w`, i.e. `[A-Za-z0-9_]`; `\W` is its negation. -/
def isWordChar (c : Char) : Bool := isLetterA c || c.isDigit || c == '_'

/-- Fuelled scan modelling `match(tokenRegex)` with
`tokenRegex = /[A-Z]+|[01]+|\W/gi` (src/main.js line 33): a maximal letter
run, else a maximal 0/1 run, else a single non-word character; other word
characters (digits 2-9, underscore) match no alternative and are skipped. -/
def tokScanF : Nat → List Char → List (List Char)
  | 0, _ => []
  | _ + 1, [] => []
  | f + 1, c :: cs =>
    if isLetterA c then
      (c :: cs.takeWhile isLetterA) :: tokScanF f (cs.dropWhile isLetterA)
    else if isBit c then
      (c :: cs.takeWhile isBit) :: tokScanF f (cs.dropWhile isBit)
    else if isWordChar c then tokScanF f cs
    else [c] :: tokScanF f cs

/-- Tokenization of an already-normalized character list. -/
def tokenizeL (l : List Char) : List (List Char) := tokScanF (l.length + 1) l

/-- Model of `tokenize` (src/main.js line 41): squeeze whitespace, replace
synonyms, then split into tokens.  (On an input with no token at all the
source's `match` returns `null`; that case is outside every claim and is
modelled as the empty list.) -/
def tokenize (s : String) : List String :=
  (tokenizeL (normChars s)).map (fun cs => String.mk cs)

/-- Test of `alphaNum = /[A-Z01]/i` (src/main.js line 46) on a token:
true when the token contains a letter or a 0/1 digit. -/
def alphaNumTest (s : String) : Bool := s.data.any (fun c => isLetterA c || isBit c)

/-- Test of `strRegex = /[A-Z]+/i` (src/main.js line 44) on a token:
true when the token contains a letter. -/
def strTest (s : String) : Bool := s.data.any isLetterA

/-- The `precedence` object (src/main.js lines 49-58); lookup of an absent
key yields `undefined`, modelled by `none`. -/
def precedenceLookup (s : String) : Option Nat :=
  if s == "undefined" then some 7
  else if s == "¬" then some 6
  else if s == "(" then some 5
  else if s == "→" then some 4
  else if s == "⊕" then some 3
  else if s == "≡" then some 2
  else if s == "∧" then some 1
  else if s == "∨" then some 0
  else none

/-- JavaScript `<=` on possibly-undefined numbers: any comparison with
`undefined` is `false` (it converts to NaN). -/
def jsLeq : Option Nat → Option Nat → Bool
  | some a, some b => a ≤ b
  | _, _ => false

/-- The `)` branch of the converter (src/main.js lines 106-111): pop and
collect until a "(" is popped (it is discarded) or the stack runs out.
The stack list is held top-first (JS `push`/`pop` act on the array end). -/
def popToParen : List String → List String × List String
  | [] => ([], [])
  | t :: stk =>
    if t == "(" then ([], stk)
    else
      let p := popToParen stk
      (t :: p.1, p.2)

/-- The `forEach` loop of `convertToPostfix` (src/main.js lines 101-122).
In the operator branch the source computes `top = stack.length.length - 1`,
which is `undefined - 1 = NaN`; `precedence[NaN]` is `undefined`, and in JS
`undefined <= x` is always `false`, so the `while` loop at lines 116-119
never runs (had it run it would crash on the undeclared function `pop`).
The operator is therefore pushed both when the stack is empty and when it
is not. -/
def convGo : List String → List String → List String → List String
  | [], out, stk => out ++ stk
  | t :: ts, out, stk =>
    if alphaNumTest t then convGo ts (out ++ [t]) stk
    else if t == "(" then convGo ts out (t :: stk)
    else if t == ")" then convGo ts (out ++ (popToParen stk).1) (popToParen stk).2
    else if stk.isEmpty then convGo ts out (t :: stk)
    else if jsLeq (precedenceLookup "NaN") (precedenceLookup t) then convGo ts out stk
    else convGo ts out (t :: stk)

/-- Model of `convertToPostfix` (src/main.js lines 97-125).  The final
`stack.reverse(); return postfix.concat(stack)` of the source is the
concatenation of the output queue with our top-first stack list. -/
def convertToPostfix (toks : List String) : List String := convGo toks [] []

/-- Fuelled model of the recursive `evaluate` (src/main.js lines 268-280),
processing the array reversed so that the JS `pop` from the array end is
the head here.  JS evaluates the two arguments of
`operations2[last](evaluate(exp), evaluate(exp))` left to right, so the
first recursive call consumes the tokens nearer the end of the sequence.
Returns the result value together with the remaining (not yet consumed)
list, i.e. the final state of the mutated array.  `pop` of an empty array
yields `undefined`, which is in none of the lookup objects and is returned
as is. -/
def evalF : Nat → List JSVal → JSVal × List JSVal
  | 0, l => (JSVal.undefined, l)
  | _ + 1, [] => (JSVal.undefined, [])
  | f + 1, t :: rest =>
    if jsKey t == "¬" then
      let p := evalF f rest
      (jsNot p.1, p.2)
    else if isOp2 (jsKey t) then
      let p := evalF f rest
      let q := evalF f p.2
      (applyOp2 (jsKey t) p.1 q.1, q.2)
    else
      match convLookup (jsKey t) with
      | some v => (v, rest)
      | none => (t, rest)

/-- Model of `evaluate` (src/main.js lines 268-280): the returned value,
together with the state of the argument array after the call (the source
pops the consumed elements off the array it is handed). -/
def evaluate (exp : List JSVal) : JSVal × List JSVal :=
  ((evalF (exp.length + 1) exp.reverse).1,
   (evalF (exp.length + 1) exp.reverse).2.reverse)

/-- Fuelled binary digits of `n`, most significant first, modelling
`Number(n).toString(2)` (so `0` renders as the single digit `0`). -/
def binDigitsF : Nat → Nat → List Bool
  | 0, _ => []
  | f + 1, n =>
    if n < 2 then [n == 1]
    else binDigitsF f (n / 2) ++ [n % 2 == 1]

/-- Binary digits of `n`, most significant first (`Number(n).toString(2)`). -/
def toBinMSB (n : Nat) : List Bool := binDigitsF (n + 1) n

/-- Model of `String.prototype.padStart(w, '0')` on a digit list. -/
def padStart (w : Nat) (l : List Bool) : List Bool :=
  List.replicate (w - l.length) false ++ l

/-- Model of `parseInt(s, 2)` on a digit list (most significant first). -/
def parseBin (l : List Bool) : Nat :=
  l.foldl (fun acc b => 2 * acc + (if b then 1 else 0)) 0

/-- Model of `getInputs` (src/main.js lines 283-290): the `2^n` assignments,
each the padded binary digits of its index split into one-character
strings. -/
def getInputs (n : Nat) : List (List String) :=
  (List.range (2 ^ n)).map
    (fun i => (padStart n (toBinMSB i)).map (fun b => if b then "1" else "0"))

/-- Model of `input[n]` array access: `undefined` beyond the end. -/
def inputGet (input : List String) (n : Nat) : JSVal :=
  match input[n]? with
  | some s => .str s
  | none => .undefined

/-- The substitution `replacedExp.map(...)` with the mutable counter `n`
(src/main.js lines 297-304): every token matching `strRegex` — i.e. every
variable-token occurrence in sequence order — receives the next input
entry, regardless of its name. -/
def substGo : List JSVal → List String → Nat → List JSVal
  | [], _, _ => []
  | t :: ts, input, n =>
    if strTest (jsKey t) then inputGet input n :: substGo ts input (n + 1)
    else t :: substGo ts input n

/-- Model of `getOutputs` (src/main.js lines 293-309): for each input,
substitute into a fresh copy of the postfix template (`map` returns a new
array) and push `conversion[evaluate(replacedExp)]`. -/
def getOutputs (exp : List JSVal) (inputs : List (List String)) : List JSVal :=
  inputs.foldl
    (fun outputs input =>
      outputs ++ [conversionVal (evaluate (substGo exp input 0)).1])
    []

/-- Model of `[...new Set(...)]` (src/main.js line 314): first-occurrence
deduplication. -/
def setDedup : List String → List String → List String
  | [], _ => []
  | t :: ts, seen =>
    if t ∈ seen then setDedup ts seen else t :: setDedup ts (t :: seen)

/-- The variable list of `newExpression` (src/main.js line 314): distinct
tokens matching `strRegex`, in first-occurrence order. -/
def pipelineVariables (raw : String) : List String :=
  setDedup ((tokenize raw).filter strTest) []

/-- The truth-table output column computed by `newExpression`
(src/main.js lines 313-317). -/
def pipelineOutputs (raw : String) : List JSVal :=
  getOutputs (( convertToPostfix (tokenize raw)).map JSVal.str)
    (getInputs (pipelineVariables raw).length)

/-- Modelled from the spec: operator precedence ranks of §4.3/§2 (the
operator entries of the `precedence` table; parentheses are only stack
boundary markers in the spec's algorithm). -/
def specPrec (s : String) : Nat :=
  if s == "¬" then 6
  else if s == "→" then 4
  else if s == "⊕" then 3
  else if s == "≡" then 2
  else if s == "∧" then 1
  else 0

/-- Modelled from the spec: the pop-while step of §4.3 for an arriving
operator `op` — pop while the stack is non-empty, the top is not "(", and
the top's precedence is greater than `op`'s, or equal to it and `op` is a
left-associative binary operator (every operator except the unary "¬"). -/
def specPopOps (op : String) : List String → List String × List String
  | [] => ([], [])
  | t :: stk =>
    if t == "(" then ([], t :: stk)
    else if specPrec op < specPrec t || (specPrec t == specPrec op && !(op == "¬")) then
      let p := specPopOps op stk
      (t :: p.1, p.2)
    else ([], t :: stk)

/-- Modelled from the spec: the ")" step of §4.3 — pop and append until a
"(" is popped and discarded; `none` (unbalanced-parentheses failure) if the
stack empties first. -/
def specPopParen : List String → Option (List String × List String)
  | [] => none
  | t :: stk =>
    if t == "(" then some ([], stk)
    else
      match specPopParen stk with
      | some p => some (t :: p.1, p.2)
      | none => none

/-- Modelled from the spec: the main loop of the §4.3 shunting-yard
algorithm over the token list, with output queue and top-first stack. -/
def specGo : List String → List String → List String → Option (List String)
  | [], out, stk => if stk.contains "(" then none else some (out ++ stk)
  | t :: ts, out, stk =>
    if alphaNumTest t then specGo ts (out ++ [t]) stk
    else if t == "(" then specGo ts out (t :: stk)
    else if t == ")" then
      match specPopParen stk with
      | some p => specGo ts (out ++ p.1) p.2
      | none => none
    else
      let p := specPopOps t stk
      specGo ts (out ++ p.1) (t :: p.2)

/-- Modelled from the spec: the full §4.3 infix-to-postfix contract,
failing with `none` on unbalanced parentheses (§4.3/§7(b)). -/
def specShuntingYard (toks : List String) : Option (List String) :=
  specGo toks [] []

/-- The ToUint32 residue through which JavaScript's bitwise operators
coerce their operands (ToInt32 differs from it only in the sign
reinterpretation of the same 32 bits). -/
def wrap32 (n : Nat) : Nat := n % 2 ^ 32

/-- JavaScript `x >> 1` on an Int32 holding the 32-bit residue `u`: the
sign-propagating shift keeps the sign bit, so a residue with bit 31 set
gets bit 31 refilled after the shift. -/
def sar32 (u : Nat) : Nat := if u < 2 ^ 31 then u / 2 else u / 2 + 2 ^ 31

/-- Model of `gray` (src/main.js line 84): `i ^ (i >> 1)`, where both `^`
and `>>` operate on 32-bit integers (operands pass through ToInt32).  The
value is returned as the 32-bit residue of the xor; this equals the actual
JavaScript number because the two xor operands always agree on bit 31
(both clear below `2^31`, both set at or above it), so the resulting Int32
has bit 31 clear and is non-negative.  Below `2^31` no wrap occurs and
`gray i = i ^^^ i / 2` (`gray_eq_grayPure`); from `2^31` on the wrap makes
the function collide, e.g. `gray (2^31 - 1) = gray (2^31) = 2^30`. -/
def gray (i : Nat) : Nat := wrap32 i ^^^ sar32 (wrap32 i)

/-- The unbounded reflected-binary map `i ^^^ (i / 2)`.  This is the
idealization of `gray` without the 32-bit wrap; it agrees with `gray`
below `2^31` (`gray_eq_grayPure`) and carries the arithmetic facts used
for the claims about the wrap-free range. -/
def grayPure (i : Nat) : Nat := i ^^^ i / 2

/-- The truth-table index displayed in Karnaugh cell `(r, c)`
(src/main.js line 253): the row's and the column's Gray-code labels,
each rendered in binary and left-padded, concatenated and parsed as one
binary number.  `parseBin` is exact; JavaScript's `parseInt` returns a
double, which coincides with it exactly when the parsed value is below
`2^53` — the theorems below about this index stay inside that range (the
collision counterexample's parsed values are `2^30`, also exact). -/
def kmIndex (v h r c : Nat) : Nat :=
  parseBin (padStart v (toBinMSB (gray r)) ++ padStart h (toBinMSB (gray c)))

/-- The digit shown in Karnaugh cell `(r, c)` (src/main.js line 254):
`outputs[parseInt(index, 2)]`, `undefined` when out of range. -/
def kmCell (outputs : List JSVal) (v h r c : Nat) : JSVal :=
  (outputs[kmIndex v h r c]?).getD .undefined

/-- The Karnaugh-map artifact built by `createKarnaughMap`
(src/main.js lines 226-265), with the DOM writes abstracted to the data
they display. -/
structure KarnaughMap where
  vertGroup : List String
  horizGroup : List String
  corner : String
  rowHeaders : List (List Bool)
  colHeaders : List (List Bool)
  grid : List (List JSVal)
deriving DecidableEq, Repr

/-- Model of `createKarnaughMap` (src/main.js lines 226-265): vertical
group size `floor(n / 2)`, horizontal the rest; Gray-code headers padded to
the group width; cell `(i, j)` shows `outputs` at the concatenated index. -/
def createKarnaughMap (outputs : List JSVal) (vars : List String) :
    KarnaughMap :=
  let vertical := vars.length / 2
  let horizontal := vars.length - vertical
  { vertGroup := vars.take vertical
    horizGroup := vars.drop vertical
    corner := String.join (vars.take vertical) ++ "\\" ++
      String.join (vars.drop vertical)
    rowHeaders := (List.range (2 ^ vertical)).map
      (fun i => padStart vertical (toBinMSB (gray i)))
    colHeaders := (List.range (2 ^ horizontal)).map
      (fun j => padStart horizontal (toBinMSB (gray j)))
    grid := (List.range (2 ^ vertical)).map
      (fun i => (List.range (2 ^ horizontal)).map
        (fun j => kmCell outputs vertical horizontal i j)) }

/-- The truth-table artifact built by `createTruthTable`
(src/main.js lines 192-223), DOM writes abstracted to the displayed data. -/
structure TruthTable where
  header : List String
  rows : List (List JSVal)
deriving DecidableEq, Repr

/-- Model of `createTruthTable` (src/main.js lines 192-223).  Line 197
executes `variables.push('Q')`, mutating the caller's array in place; the
mutation is modelled by returning the updated variable list alongside the
table (the header row is that same updated list). -/
def createTruthTable (inputs : List (List String)) (outputs : List JSVal)
    (vars : List String) : TruthTable × List String :=
  let mutated := vars ++ ["Q"]
  ({ header := mutated
     rows := inputs.mapIdx
       (fun i input => input.map JSVal.str ++ [(outputs[i]?).getD JSVal.undefined]) },
   mutated)

/-- Model of the `newExpression` pipeline (src/main.js lines 312-326) for
the two table artifacts, in source order: `createKarnaughMap` (line 325)
runs on `variables` before `createTruthTable` (line 326) appends "Q" to
that same array.  Returns the Karnaugh map, the truth table and the final
state of the variables array. -/
def newExpressionArtifacts (raw : String) :
    KarnaughMap × TruthTable × List String :=
  let vars := pipelineVariables raw
  let inputs := getInputs vars.length
  let outputs := pipelineOutputs raw
  let km := createKarnaughMap outputs vars
  let p := createTruthTable inputs outputs vars
  (km, p.1, p.2)

/-- The hypothetical opposite call order (truth table first): the Karnaugh
map would then be built from the variable list already mutated by
`createTruthTable`'s `push('Q')`. -/
def newExpressionSwapped (raw : String) :
    KarnaughMap × TruthTable × List String :=
  let vars := pipelineVariables raw
  let inputs := getInputs vars.length
  let outputs := pipelineOutputs raw
  let p := createTruthTable inputs outputs vars
  let km := createKarnaughMap outputs p.2
  (km, p.1, p.2)

/-- Claim C1: the claim states that the first operand the evaluator
evaluates is the right-hand operand, so that the expression `A→B`
(postfix `A B →`) yields the canonical implication table
1, 1, 0, 1 over the assignments (0,0), (0,1), (1,0), (1,1).  On the code
this fails: JavaScript passes the first-evaluated (right-hand) operand as
the first parameter `a` of `operations2['→'] = (a, b) => (!a || b)`, so the
code computes `B→A` and produces the table 1, 0, 1, 1; in particular the
already-substituted postfix `1 0 →` evaluates to `true` although the
claimed table has row (1,0) ↦ 0. -/
theorem evaluate_imply_operand_order_bug :
    getOutputs [JSVal.str "A", JSVal.str "B", JSVal.str "→"] (getInputs 2) =
      [JSVal.str "1", JSVal.str "0", JSVal.str "1", JSVal.str "1"] ∧
    getOutputs [JSVal.str "A", JSVal.str "B", JSVal.str "→"] (getInputs 2) ≠
      [JSVal.str "1", JSVal.str "1", JSVal.str "0", JSVal.str "1"] ∧
    (evaluate [JSVal.str "1", JSVal.str "0", JSVal.str "→"]).1 = JSVal.bool true := by
  decide

/-- Claim C2: the claim states that substitution is positional by variable
name (indexed through the Variable Set), every occurrence of the same name
getting the same bit, so that "A XOR A" yields output 0 for every
assignment.  On the code this fails: `getOutputs` advances its counter `n`
on every variable-token occurrence, so in the postfix `A A ∨` of
"A XOR A" (note XOR itself normalizes to '∨', src/main.js line 23) the
second `A` receives `input[1]`, which is `undefined`; the resulting output
column is that of plain `A`, namely 0, 1 — not 0, 0.  The Variable-Set
part of the claim does hold: the set is `[A]`. -/
theorem getOutputs_substitution_bug :
    pipelineVariables "A XOR A" = ["A"] ∧
    pipelineOutputs "A XOR A" = [JSVal.str "0", JSVal.str "1"] ∧
    pipelineOutputs "A XOR A" ≠ [JSVal.str "0", JSVal.str "0"] ∧
    substGo [JSVal.str "A", JSVal.str "A"] ["1"] 0 =
      [JSVal.str "1", JSVal.undefined] := by
  decide

/-- Claim C3: the claim states the converter pops higher-or-equal
precedence operators before pushing an arriving operator, producing a
postfix sequence equivalent to the infix input.  On the code this fails:
the precedence comparison at src/main.js lines 115-116 reads
`stack.length.length - 1` (NaN), so no operator is ever popped by
precedence; on the infix `A ∧ B ∨ C` the code emits `A B C ∨ ∧` (which
parses as `A∧(B∨C)`), while the §4.3 algorithm required by the claim emits
`A B ∧ C ∨`. -/
theorem convertToPostfix_precedence_bug :
    convertToPostfix ["A", "∧", "B", "∨", "C"] = ["A", "B", "C", "∨", "∧"] ∧
    specShuntingYard ["A", "∧", "B", "∨", "C"] = some ["A", "B", "∧", "C", "∨"] ∧
    convertToPostfix ["A", "∧", "B", "∨", "C"] ≠ ["A", "B", "∧", "C", "∨"] := by
  decide

/-- Claim C4: the claim states normalization maps '!', 'NOT' to '¬' and
'⊻', 'XOR' to '⊕'.  On the code the single-character synonyms behave as
claimed (e.g. "A.B+!C" does normalize to "A∧B∨¬C"), but `otherSymbols`
maps the words NOT and XOR to '∨' (src/main.js lines 21, 23), so
"NOT A" normalizes to "∨A" rather than "¬A" and "A XOR B" to "A∨B"
rather than "A⊕B". -/
theorem normalize_synonym_bug :
    normalize "A.B+!C" = "A∧B∨¬C" ∧
    normalize "NOT A" = "∨A" ∧ normalize "NOT A" ≠ "¬A" ∧
    normalize "A XOR B" = "A∨B" ∧ normalize "A XOR B" ≠ "A⊕B" := by
  decide

/-- Claim C5: the claim states the conversion fails with an
unbalanced-parentheses error when a ')' finds no '(' or a '(' survives to
the end of input.  On the code no error exists: `convertToPostfix` returns
an ordinary token list in both cases — for `( A` the leftover "(" is even
emitted into the postfix output, and for `A )` the unmatched ")" is
silently dropped — whereas the §4.3 algorithm required by the claim
fails on both inputs. -/
theorem convertToPostfix_unbalanced_paren_bug :
    convertToPostfix ["(", "A"] = ["A", "("] ∧
    convertToPostfix ["A", ")"] = ["A"] ∧
    specShuntingYard ["(", "A"] = none ∧
    specShuntingYard ["A", ")"] = none := by
  decide

/-- Claim C6, counterexample: the evaluator does not leave the sequence it
is given unchanged — evaluating the postfix `0 1 ∧` consumes it entirely,
so the array state after the call differs from the sequence passed in. -/
theorem evaluate_mutates_input :
    (evaluate [JSVal.str "0", JSVal.str "1", JSVal.str "∧"]).2 ≠
      [JSVal.str "0", JSVal.str "1", JSVal.str "∧"] := by
  decide

/-- Claim C7, counterexample: the tokenizer does not emit one Constant
token per digit — the normalized input "10" tokenizes to the single
two-digit token "10", not to "1", "0". -/
theorem tokenize_groups_digits_counterexample :
    tokenize "10" = ["10"] ∧ tokenize "10" ≠ ["1", "0"] := by
  decide

/-- Claim C10: `createTruthTable` appends the fixed output label "Q" to the
variables array it receives, mutating the caller's Variable Set (modelled
by the returned updated list); in the `newExpression` pipeline the
Karnaugh map is built from the variable list before the truth table is
created, so its axis groups exclude "Q", while running the two in the
opposite order would put "Q" into the Karnaugh horizontal group. -/
theorem truthTable_mutation_order (raw : String) (inputs : List (List String))
    (outputs : List JSVal) (vars : List String) (hQ : "Q" ∉ vars) :
    ( createTruthTable inputs outputs vars).2 = vars ++ ["Q"] ∧
    "Q" ∉ ( createKarnaughMap outputs vars).vertGroup ∧
    "Q" ∉ ( createKarnaughMap outputs vars).horizGroup ∧
    "Q" ∈ ( createKarnaughMap outputs
      (( createTruthTable inputs outputs vars).2)).horizGroup ∧
    (newExpressionArtifacts raw).1 =
      createKarnaughMap (pipelineOutputs raw) (pipelineVariables raw) := by
  refine ⟨rfl, ?_, ?_, ?_, rfl⟩
  · exact fun h => hQ (List.take_subset _ _ h)
  · exact fun h => hQ (List.drop_subset _ _ h)
  · show "Q" ∈ (vars ++ ["Q"]).drop ((vars ++ ["Q"]).length / 2)
    have hle : (vars ++ ["Q"]).length / 2 ≤ vars.length := by
      simp only [List.length_append, List.length_singleton]
      omega
    rw [List.drop_append_of_le_length hle]
    exact List.mem_append_right _ (List.mem_singleton.mpr rfl)

/-- Claim C10, witness instantiation at a concrete pipeline state. -/
theorem truthTable_mutation_order_witness :
    ( createTruthTable [["0"], ["1"]] [JSVal.str "0", JSVal.str "1"] ["A"]).2 =
      ["A"] ++ ["Q"] ∧
    "Q" ∉ ( createKarnaughMap [JSVal.str "0", JSVal.str "1"] ["A"]).vertGroup ∧
    "Q" ∉ ( createKarnaughMap [JSVal.str "0", JSVal.str "1"] ["A"]).horizGroup ∧
    "Q" ∈ ( createKarnaughMap [JSVal.str "0", JSVal.str "1"]
      (( createTruthTable [["0"], ["1"]] [JSVal.str "0", JSVal.str "1"]
        ["A"]).2)).horizGroup ∧
    (newExpressionArtifacts "A").1 =
      createKarnaughMap (pipelineOutputs "A") (pipelineVariables "A") :=
  truthTable_mutation_order "A" [["0"], ["1"]] [JSVal.str "0", JSVal.str "1"]
    ["A"] (by decide)

/-- The remainder returned by the fuelled evaluator is never longer than
its input (the evaluator only pops). -/
theorem evalF_snd_le (f : Nat) : ∀ l : List JSVal, ((evalF f l).2).length ≤ l.length := by
  induction f with
  | zero => intro l; simp [evalF]
  | succ f ih =>
    intro l
    cases l with
    | nil => simp [evalF]
    | cons t rest =>
      simp only [evalF]
      split_ifs with h1 h2
      · exact le_trans (ih rest) (Nat.le_succ _)
      · exact le_trans (le_trans (ih _) (ih rest)) (Nat.le_succ _)
      · cases hc : convLookup (jsKey t) <;> simp [hc]

/-- With positive fuel, evaluating a non-empty list pops at least the head. -/
theorem evalF_snd_cons_le (f : Nat) (t : JSVal) (rest : List JSVal) :
    ((evalF (f + 1) (t :: rest)).2).length ≤ rest.length := by
  simp only [evalF]
  split_ifs with h1 h2
  · exact evalF_snd_le f rest
  · exact le_trans (evalF_snd_le f _) (evalF_snd_le f rest)
  · cases hc : convLookup (jsKey t) <;> simp [hc]

/-- A fold that pushes one element per input is a map. -/
theorem foldl_push_eq_map {α β : Type} (g : α → β) :
    ∀ (inputs : List α) (acc : List β),
      inputs.foldl (fun o i => o ++ [g i]) acc = acc ++ inputs.map g := by
  intro inputs
  induction inputs with
  | nil => intro acc; simp
  | cons i is ih => intro acc; simp [ih]

/-- Claim C6, amended: the evaluator destructively consumes the sequence it
is handed (the array is strictly shorter after every evaluation of a
non-empty sequence), but `getOutputs` substitutes into a fresh copy of the
template for each assignment — its output column is the per-assignment map
of an independent evaluation of the freshly substituted copy, so the
template itself survives all `2^n` evaluations. -/
theorem evaluate_destructive_but_template_safe :
    (∀ exp : List JSVal, exp ≠ [] → ((evaluate exp).2).length < exp.length) ∧
    (∀ (exp : List JSVal) (inputs : List (List String)),
      getOutputs exp inputs =
        inputs.map (fun input => conversionVal (evaluate (substGo exp input 0)).1)) := by
  constructor
  · intro exp hne
    obtain ⟨t, rest, hrev⟩ : ∃ t rest, exp.reverse = t :: rest := by
      cases h : exp.reverse with
      | nil => exact absurd (List.reverse_eq_nil_iff.mp h) hne
      | cons t rest => exact ⟨t, rest, rfl⟩
    have hlen : exp.length = rest.length + 1 := by
      have := List.length_reverse exp
      rw [hrev] at this
      simpa using this.symm
    have hle : ((evalF (exp.length + 1) exp.reverse).2).length ≤ rest.length := by
      rw [hrev, hlen]
      exact evalF_snd_cons_le (rest.length + 1) t rest
    have : ((evaluate exp).2).length = ((evalF (exp.length + 1) exp.reverse).2).length := by
      simp [evaluate]
    omega
  · intro exp inputs
    exact foldl_push_eq_map _ inputs []

/-- Claim C6, amended, witness instantiation. -/
theorem evaluate_destructive_witness :
    ((evaluate [JSVal.str "1"]).2).length < ([JSVal.str "1"] : List JSVal).length ∧
    getOutputs [JSVal.str "A"] [["0"], ["1"]] =
      [["0"], ["1"]].map
        (fun input => conversionVal (evaluate (substGo [JSVal.str "A"] input 0)).1) :=
  ⟨evaluate_destructive_but_template_safe.1 [JSVal.str "1"] (by decide),
   evaluate_destructive_but_template_safe.2 [JSVal.str "A"] [["0"], ["1"]]⟩

/-- A bit character is not a letter. -/
theorem isBit_not_letterA {c : Char} (h : isBit c = true) : isLetterA c = false := by
  have : c = '0' ∨ c = '1' := by
    simp only [isBit, Bool.or_eq_true, beq_iff_eq] at h
    exact h
  rcases this with rfl | rfl <;> decide

/-- Dropping a while-prefix never lengthens a list. -/
theorem length_dropWhile_le' (p : Char → Bool) :
    ∀ l : List Char, (l.dropWhile p).length ≤ l.length := by
  intro l
  induction l with
  | nil => simp
  | cons c cs ih =>
    rw [List.dropWhile_cons]
    split_ifs
    · exact le_trans ih (Nat.le_succ _)
    · exact le_refl _

/-- On a list made of a block satisfying `p` followed by a list whose head
fails `p`, `takeWhile` returns exactly the block and `dropWhile` the rest. -/
theorem takeWhile_dropWhile_append (p : Char → Bool) :
    ∀ (l₁ l₂ : List Char), (∀ c ∈ l₁, p c = true) →
      (∀ r, l₂.head? = some r → p r = false) →
      (l₁ ++ l₂).takeWhile p = l₁ ∧ (l₁ ++ l₂).dropWhile p = l₂ := by
  intro l₁
  induction l₁ with
  | nil =>
    intro l₂ _ h₂
    cases l₂ with
    | nil => simp
    | cons r t =>
      have hr : p r = false := h₂ r rfl
      simp [List.takeWhile_cons, List.dropWhile_cons, hr]
  | cons a l₁ ih =>
    intro l₂ h₁ h₂
    have ha : p a = true := h₁ a (by simp)
    have := ih l₂ (fun c hc => h₁ c (by simp [hc])) h₂
    simp [List.takeWhile_cons, List.dropWhile_cons, ha, this.1, this.2]

/-- The token scan does not depend on the fuel once the fuel exceeds the
input length. -/
theorem tokScanF_congr :
    ∀ (n : Nat) (l : List Char), l.length ≤ n → ∀ f₁ f₂ : Nat,
      l.length < f₁ → l.length < f₂ → tokScanF f₁ l = tokScanF f₂ l := by
  intro n
  induction n with
  | zero =>
    intro l hl f₁ f₂ h₁ h₂
    have : l = [] := List.length_eq_zero.mp (Nat.le_zero.mp hl)
    subst this
    obtain ⟨a, rfl⟩ : ∃ a, f₁ = a + 1 := ⟨f₁ - 1, by omega⟩
    obtain ⟨b, rfl⟩ : ∃ b, f₂ = b + 1 := ⟨f₂ - 1, by omega⟩
    rfl
  | succ n ih =>
    intro l hl f₁ f₂ h₁ h₂
    cases l with
    | nil =>
      obtain ⟨a, rfl⟩ : ∃ a, f₁ = a + 1 := ⟨f₁ - 1, by omega⟩
      obtain ⟨b, rfl⟩ : ∃ b, f₂ = b + 1 := ⟨f₂ - 1, by omega⟩
      rfl
    | cons c cs =>
      obtain ⟨a, rfl⟩ : ∃ a, f₁ = a + 1 := ⟨f₁ - 1, by omega⟩
      obtain ⟨b, rfl⟩ : ∃ b, f₂ = b + 1 := ⟨f₂ - 1, by omega⟩
      have hcs : cs.length ≤ n := by
        simp only [List.length_cons] at hl
        omega
      have hlen : cs.length < a ∧ cs.length < b := by
        simp only [List.length_cons] at h₁ h₂
        omega
      simp only [tokScanF]
      split_ifs with hL hB hW
      · rw [ih (cs.dropWhile isLetterA)
          (le_trans (length_dropWhile_le' _ cs) hcs) a b
          (lt_of_le_of_lt (length_dropWhile_le' _ cs) hlen.1)
          (lt_of_le_of_lt (length_dropWhile_le' _ cs) hlen.2)]
      · rw [ih (cs.dropWhile isBit)
          (le_trans (length_dropWhile_le' _ cs) hcs) a b
          (lt_of_le_of_lt (length_dropWhile_le' _ cs) hlen.1)
          (lt_of_le_of_lt (length_dropWhile_le' _ cs) hlen.2)]
      · exact ih cs hcs a b hlen.1 hlen.2
      · rw [ih cs hcs a b hlen.1 hlen.2]

/-- Claim C7, amended: a maximal run of 0/1 digits in the normalized
character stream becomes a single token containing the whole run (followed
by the tokens of the remainder), not one token per digit. -/
theorem tokenize_digit_run_grouped (ds rest : List Char) (hne : ds ≠ [])
    (hbits : ∀ c ∈ ds, isBit c = true)
    (hrest : ∀ r, rest.head? = some r → isBit r = false) :
    tokenizeL (ds ++ rest) = ds :: tokenizeL rest := by
  obtain ⟨d, ds', rfl⟩ : ∃ d ds', ds = d :: ds' := by
    cases ds with
    | nil => exact absurd rfl hne
    | cons d ds' => exact ⟨d, ds', rfl⟩
  have hd : isBit d = true := hbits d (by simp)
  have hdL : isLetterA d = false := isBit_not_letterA hd
  have hblock := takeWhile_dropWhile_append isBit (ds') rest
    (fun c hc => hbits c (by simp [hc])) hrest
  show tokScanF ((d :: ds' ++ rest).length + 1) (d :: (ds' ++ rest)) = _
  simp only [tokScanF, hdL, hd, Bool.false_eq_true, if_false, if_true]
  rw [hblock.1, hblock.2]
  refine congrArg _ ?_
  exact tokScanF_congr (ds'.length + rest.length + 1) rest (by omega) _ _
    (by simp; omega) (by omega)

/-- Claim C7, amended, witness instantiation: the run "01" before "∧". -/
theorem tokenize_digit_run_witness :
    tokenizeL (['0', '1'] ++ ['∧']) = ['0', '1'] :: tokenizeL ['∧'] :=
  tokenize_digit_run_grouped ['0', '1'] ['∧'] (by decide) (by decide)
    (fun r hr => by
      simp only [List.head?_cons, Option.some.injEq] at hr
      subst hr
      decide)

/-- Unfolding of the idealized map. -/
theorem grayPure_def (n : Nat) : grayPure n = n ^^^ n / 2 := rfl

/-- Halving commutes with `grayPure`. -/
theorem grayPure_div_two (n : Nat) : grayPure n / 2 = grayPure (n / 2) := by
  rw [grayPure_def, Nat.xor_div_two, grayPure_def]

/-- The parity of `grayPure n`. -/
theorem grayPure_mod_two (n : Nat) : grayPure n % 2 = (n + n / 2) % 2 := by
  rw [grayPure_def, Nat.xor_mod_two_eq]

/-- `grayPure` vanishes only at zero. -/
theorem grayPure_eq_zero_iff {n : Nat} : grayPure n = 0 ↔ n = 0 := by
  constructor
  · intro h
    rw [grayPure_def] at h
    have hnn : n = n / 2 := by
      have h1 : (n ^^^ n / 2) ^^^ n / 2 = 0 ^^^ n / 2 := by rw [h]
      rw [Nat.xor_assoc, Nat.xor_self, Nat.xor_zero, Nat.zero_xor] at h1
      exact h1
    omega
  · rintro rfl
    rfl

/-- The Gray code is injective. -/
theorem grayPure_injective : Function.Injective grayPure := by
  intro a
  induction a using Nat.strong_induction_on with
  | _ a ih =>
    intro b h
    rcases Nat.eq_zero_or_pos a with rfl | ha
    · have hb : grayPure b = 0 := by rw [← h]; rfl
      exact (grayPure_eq_zero_iff.mp hb).symm
    · have hd : grayPure (a / 2) = grayPure (b / 2) := by
        rw [← grayPure_div_two, ← grayPure_div_two, h]
      have h2 : a / 2 = b / 2 := ih (a / 2) (Nat.div_lt_self ha (by norm_num)) hd
      have hm : (a + a / 2) % 2 = (b + b / 2) % 2 := by
        rw [← grayPure_mod_two, ← grayPure_mod_two, h]
      omega

/-- `grayPure` preserves every power-of-two range. -/
theorem grayPure_lt_two_pow {n k : Nat} (h : n < 2 ^ k) : grayPure n < 2 ^ k := by
  rw [grayPure_def]
  exact Nat.xor_lt_two_pow h (lt_of_le_of_lt (Nat.div_le_self n 2) h)

/-- `grayPure` maps each power-of-two range onto itself. -/
theorem grayPure_surj (k m : Nat) (hm : m < 2 ^ k) : ∃ i, i < 2 ^ k ∧ grayPure i = m := by
  have hsurj : Function.Surjective
      (fun i : Fin (2 ^ k) => (⟨grayPure i.1, grayPure_lt_two_pow i.2⟩ : Fin (2 ^ k))) := by
    rw [← Finite.injective_iff_surjective]
    intro x y hxy
    exact Fin.ext (grayPure_injective (congrArg Fin.val hxy))
  obtain ⟨i, hi⟩ := hsurj ⟨m, hm⟩
  exact ⟨i.1, i.2, congrArg Fin.val hi⟩

/-- Bitwise xor on a low-bit decomposition. -/
theorem xor_two_mul_add (a b i j : Nat) (hi : i < 2) (hj : j < 2) :
    (2 * a + i) ^^^ (2 * b + j) = 2 * (a ^^^ b) + (i ^^^ j) := by
  have hdiv : ((2 * a + i) ^^^ (2 * b + j)) / 2 = a ^^^ b := by
    rw [Nat.xor_div_two]
    congr 1 <;> omega
  have hmod : ((2 * a + i) ^^^ (2 * b + j)) % 2 = (i + j) % 2 := by
    rw [Nat.xor_mod_two_eq]
    omega
  have hij : i ^^^ j = (i + j) % 2 := by
    interval_cases i <;> interval_cases j <;> rfl
  omega

/-- `n ^^^ (n+1)` is a block of trailing ones. -/
theorem xor_succ_self (i : Nat) : ∃ t, i ^^^ (i + 1) = 2 ^ (t + 1) - 1 := by
  induction i using Nat.strong_induction_on with
  | _ i ih =>
    rcases Nat.even_or_odd i with ⟨a, ha⟩ | ⟨a, ha⟩
    · refine ⟨0, ?_⟩
      rw [show i = 2 * a + 0 by omega, show 2 * a + 0 + 1 = 2 * a + 1 by omega,
        xor_two_mul_add a a 0 1 (by omega) (by omega), Nat.xor_self]
      decide
    · obtain ⟨t, ht⟩ := ih a (by omega)
      refine ⟨t + 1, ?_⟩
      rw [show i = 2 * a + 1 by omega, show 2 * a + 1 + 1 = 2 * (a + 1) + 0 by omega,
        xor_two_mul_add a (a + 1) 1 0 (by omega) (by omega), ht,
        show (1 : Nat) ^^^ 0 = 1 from rfl]
      have h4 : (1 : Nat) ≤ 2 ^ (t + 1) := Nat.one_le_two_pow
      rw [pow_succ]
      omega

/-- `grayPure` is a homomorphism for xor. -/
theorem grayPure_xor_grayPure (a b : Nat) : grayPure a ^^^ grayPure b = grayPure (a ^^^ b) := by
  rw [grayPure_def, grayPure_def, grayPure_def, Nat.xor_div_two]
  apply Nat.eq_of_testBit_eq
  intro j
  simp only [Nat.testBit_xor]
  cases a.testBit j <;> cases (a / 2).testBit j <;>
    cases b.testBit j <;> cases (b / 2).testBit j <;> rfl

/-- Xor of two adjacent all-ones blocks is a single bit. -/
theorem two_pow_sub_one_xor (t : Nat) : (2 ^ (t + 1) - 1) ^^^ (2 ^ t - 1) = 2 ^ t := by
  apply Nat.eq_of_testBit_eq
  intro j
  rw [Nat.testBit_xor, Nat.testBit_two_pow_sub_one, Nat.testBit_two_pow_sub_one,
    Nat.testBit_two_pow]
  by_cases h1 : j < t + 1 <;> by_cases h2 : j < t <;> by_cases h3 : t = j <;>
    simp [h1, h2, h3] <;> omega

/-- The Gray code of an all-ones block is its top bit. -/
theorem grayPure_two_pow_sub_one (k : Nat) (hk : 1 ≤ k) :
    grayPure (2 ^ k - 1) = 2 ^ (k - 1) := by
  rw [grayPure_def]
  have h1 : (1 : Nat) ≤ 2 ^ (k - 1) := Nat.one_le_two_pow
  have h2 : 2 ^ k = 2 * 2 ^ (k - 1) := by
    conv_lhs => rw [show k = (k - 1) + 1 by omega]
    rw [pow_succ]
    ring
  have hdiv : (2 ^ k - 1) / 2 = 2 ^ (k - 1) - 1 := by omega
  rw [hdiv]
  have := two_pow_sub_one_xor (k - 1)
  rw [show (k - 1) + 1 = k by omega] at this
  exact this

/-- Consecutive Gray codes differ by a single bit. -/
theorem grayPure_succ_two_pow (i : Nat) : ∃ t, grayPure i ^^^ grayPure (i + 1) = 2 ^ t := by
  obtain ⟨t, ht⟩ := xor_succ_self i
  refine ⟨t, ?_⟩
  rw [grayPure_xor_grayPure, ht]
  have := grayPure_two_pow_sub_one (t + 1) (by omega)
  simpa using this

/-- `a` and `b` differ in exactly one of the low `k` bit positions. -/
def oneBitDiff (k a b : Nat) : Prop :=
  ((Finset.range k).filter (fun j => a.testBit j ≠ b.testBit j)).card = 1

/-- A pair whose xor is a power of two below the width differs in exactly
one bit position of that width. -/
theorem oneBitDiff_of_xor (k a b t : Nat) (h : a ^^^ b = 2 ^ t) (ht : t < k) :
    oneBitDiff k a b := by
  have hset : (Finset.range k).filter (fun j => a.testBit j ≠ b.testBit j) = {t} := by
    ext j
    simp only [Finset.mem_filter, Finset.mem_range, Finset.mem_singleton]
    constructor
    · rintro ⟨hjk, hne⟩
      have hx : (a ^^^ b).testBit j = true := by
        rw [Nat.testBit_xor]
        cases hA : a.testBit j <;> cases hB : b.testBit j <;> simp_all
      rw [h, Nat.testBit_two_pow] at hx
      exact (of_decide_eq_true hx).symm
    · rintro rfl
      refine ⟨ht, ?_⟩
      have hx : (a ^^^ b).testBit j = true := by
        rw [h]
        exact Nat.testBit_two_pow_self
      rw [Nat.testBit_xor] at hx
      intro heq
      rw [heq] at hx
      simp at hx
  rw [oneBitDiff, hset]
  rfl

/-- Below the 32-bit sign threshold no wrap occurs and `gray` is the
idealized map. -/
theorem gray_eq_grayPure {i : Nat} (h : i < 2 ^ 31) : gray i = grayPure i := by
  have hw : wrap32 i = i := Nat.mod_eq_of_lt (lt_trans h (by norm_num))
  rw [gray, hw, sar32, if_pos h, grayPure_def]

/-- Claim C9, counterexample: the claim as stated fails at `k = 32`,
`i = 2^31 - 1` (inside its stated range `[0, 2^k - 2]`): JavaScript's `^`
and `>>` coerce through ToInt32, so the sign-propagating shift makes
`gray (2^31 - 1)` and `gray (2^31)` both equal `2^30` — zero differing
bits, not one. -/
theorem gray_wraps_at_32_counterexample :
    (1 : Nat) ≤ 32 ∧ 2 ^ 31 - 1 ≤ 2 ^ 32 - 2 ∧
    gray (2 ^ 31 - 1) = 2 ^ 30 ∧ gray (2 ^ 31 - 1 + 1) = 2 ^ 30 ∧
    ¬ oneBitDiff 32 (gray (2 ^ 31 - 1)) (gray (2 ^ 31 - 1 + 1)) := by
  refine ⟨by norm_num, by decide, by decide, by decide, ?_⟩
  intro h
  rw [oneBitDiff, show gray (2 ^ 31 - 1) = 2 ^ 30 from by decide,
    show gray (2 ^ 31 - 1 + 1) = 2 ^ 30 from by decide] at h
  simp at h

/-- Claim C9, amended: for every `k` with `1 ≤ k ≤ 31` (so that the
arguments stay below the ToInt32 wrap of `^` and `>>`) and every
`i ≤ 2^k - 2`, `gray i` and `gray (i+1)` differ in exactly one of the `k`
bit positions, and `gray (2^k - 1)` and `gray 0` also differ in exactly
one bit (cyclic adjacency). -/
theorem gray_adjacent_one_bit (k i : Nat) (hk : 1 ≤ k) (hk31 : k ≤ 31)
    (hi : i ≤ 2 ^ k - 2) :
    oneBitDiff k (gray i) (gray (i + 1)) ∧
    oneBitDiff k (gray (2 ^ k - 1)) (gray 0) := by
  have h2k : 2 ≤ 2 ^ k := by
    calc 2 = 2 ^ 1 := rfl
    _ ≤ 2 ^ k := Nat.pow_le_pow_right (by norm_num) hk
  have hk31p : 2 ^ k ≤ 2 ^ 31 := Nat.pow_le_pow_right (by norm_num) hk31
  have hib : i < 2 ^ k := by omega
  have hib1 : i + 1 < 2 ^ k := by omega
  rw [gray_eq_grayPure (by omega), gray_eq_grayPure (by omega),
    gray_eq_grayPure (show 2 ^ k - 1 < 2 ^ 31 by omega),
    gray_eq_grayPure (show 0 < 2 ^ 31 by norm_num)]
  constructor
  · obtain ⟨t, ht⟩ := grayPure_succ_two_pow i
    have hlt : 2 ^ t < 2 ^ k := by
      rw [← ht]
      exact Nat.xor_lt_two_pow (grayPure_lt_two_pow hib) (grayPure_lt_two_pow hib1)
    exact oneBitDiff_of_xor k _ _ t ht
      ((Nat.pow_lt_pow_iff_right (by norm_num)).mp hlt)
  · apply oneBitDiff_of_xor k _ _ (k - 1)
    · rw [show grayPure 0 = 0 from rfl, Nat.xor_zero]
      exact grayPure_two_pow_sub_one k hk
    · omega

/-- Claim C9, amended, witness instantiation at `k = 2`, `i = 1`. -/
theorem gray_adjacent_one_bit_witness :
    oneBitDiff 2 (gray 1) (gray (1 + 1)) ∧
    oneBitDiff 2 (gray (2 ^ 2 - 1)) (gray 0) :=
  gray_adjacent_one_bit 2 1 (by decide) (by decide) (by decide)

/-- The digit renderer does not depend on the fuel once it exceeds the
argument. -/
theorem binDigitsF_congr :
    ∀ (n f₁ f₂ : Nat), n < f₁ → n < f₂ → binDigitsF f₁ n = binDigitsF f₂ n := by
  intro n
  induction n using Nat.strong_induction_on with
  | _ n ih =>
    intro f₁ f₂ h₁ h₂
    obtain ⟨a, rfl⟩ : ∃ a, f₁ = a + 1 := ⟨f₁ - 1, by omega⟩
    obtain ⟨b, rfl⟩ : ∃ b, f₂ = b + 1 := ⟨f₂ - 1, by omega⟩
    show (if n < 2 then [n == 1] else binDigitsF a (n / 2) ++ [n % 2 == 1]) =
      (if n < 2 then [n == 1] else binDigitsF b (n / 2) ++ [n % 2 == 1])
    by_cases hn : n < 2
    · rw [if_pos hn, if_pos hn]
    · rw [if_neg hn, if_neg hn,
        ih (n / 2) (by omega) a b (by omega) (by omega)]

/-- Unfolding of `toBinMSB` for arguments of at least two. -/
theorem toBinMSB_two_le (n : Nat) (h : 2 ≤ n) :
    toBinMSB n = toBinMSB (n / 2) ++ [n % 2 == 1] := by
  show (if n < 2 then [n == 1] else binDigitsF n (n / 2) ++ [n % 2 == 1]) = _
  rw [if_neg (by omega), toBinMSB,
    binDigitsF_congr (n / 2) n (n / 2 + 1) (by omega) (by omega)]

/-- Accumulated binary parse. -/
theorem parseBin_foldl (l : List Bool) : ∀ a : Nat,
    l.foldl (fun acc b => 2 * acc + (if b then 1 else 0)) a =
      a * 2 ^ l.length + parseBin l := by
  induction l with
  | nil => intro a; simp [parseBin]
  | cons b l ih =>
    intro a
    have hl : parseBin (b :: l) = (if b then 1 else 0) * 2 ^ l.length + parseBin l := by
      rw [parseBin, List.foldl_cons, ih]
      cases b <;> simp
    rw [List.foldl_cons, ih, hl, List.length_cons, pow_succ]
    ring

/-- The parse of one digit. -/
theorem parseBin_cons (b : Bool) (l : List Bool) :
    parseBin (b :: l) = (if b then 1 else 0) * 2 ^ l.length + parseBin l := by
  rw [parseBin, List.foldl_cons, parseBin_foldl]
  cases b <;> simp

/-- The parse of a concatenation. -/
theorem parseBin_append (l₁ l₂ : List Bool) :
    parseBin (l₁ ++ l₂) = parseBin l₁ * 2 ^ l₂.length + parseBin l₂ := by
  rw [parseBin, List.foldl_append, ← parseBin, parseBin_foldl]

/-- Leading zeros parse to zero. -/
theorem parseBin_replicate (m : Nat) : parseBin (List.replicate m false) = 0 := by
  induction m with
  | zero => rfl
  | succ m ih => rw [List.replicate_succ, parseBin_cons, ih]; simp

/-- Left-padding with zeros does not change the parsed value. -/
theorem parseBin_padStart (w : Nat) (l : List Bool) :
    parseBin (padStart w l) = parseBin l := by
  rw [padStart, parseBin_append, parseBin_replicate]
  simp

/-- Length of a padded digit list. -/
theorem padStart_length (w : Nat) (l : List Bool) :
    (padStart w l).length = max w l.length := by
  simp [padStart]
  omega

/-- Rendering then parsing binary digits is the identity. -/
theorem parseBin_toBinMSB (n : Nat) : parseBin (toBinMSB n) = n := by
  induction n using Nat.strong_induction_on with
  | _ n ih =>
    by_cases hn : n < 2
    · interval_cases n <;> decide
    · rw [toBinMSB_two_le n (by omega), parseBin_append, ih (n / 2) (by omega)]
      have h1 : parseBin [(n % 2 == 1)] = n % 2 := by
        rcases Nat.mod_two_eq_zero_or_one n with h | h <;> rw [h] <;> rfl
      rw [h1]
      simp only [List.length_singleton, pow_one]
      omega

/-- The rendered digits of `n < 2^k` fit in width `k` (for `k ≥ 1`). -/
theorem toBinMSB_length_le :
    ∀ (n k : Nat), 1 ≤ k → n < 2 ^ k → (toBinMSB n).length ≤ k := by
  intro n
  induction n using Nat.strong_induction_on with
  | _ n ih =>
    intro k hk h
    by_cases hn : n < 2
    · have h1 : (toBinMSB n).length = 1 := by interval_cases n <;> rfl
      omega
    · have hk2 : 2 ≤ k := by
        by_contra hcon
        have hk1 : k = 1 := by omega
        subst hk1
        norm_num at h
        omega
      have h2 : 2 ^ k = 2 * 2 ^ (k - 1) := by
        conv_lhs => rw [show k = (k - 1) + 1 by omega]
        rw [pow_succ]
        ring
      have h3 : n / 2 < 2 ^ (k - 1) := by omega
      have h4 := ih (n / 2) (by omega) (k - 1) (by omega) h3
      rw [toBinMSB_two_le n (by omega), List.length_append, List.length_singleton]
      omega

/-- The Karnaugh cell index in closed form on the wrap-free range: the
row's Gray code shifted by the column width plus the column's Gray code. -/
theorem kmIndex_eq (v h r c : Nat) (hh : 1 ≤ h) (hc : c < 2 ^ h)
    (hr31 : r < 2 ^ 31) (hh31 : h ≤ 31) :
    kmIndex v h r c = grayPure r * 2 ^ h + grayPure c := by
  have hc31 : c < 2 ^ 31 :=
    lt_of_lt_of_le hc (Nat.pow_le_pow_right (by norm_num) hh31)
  have hlen : (padStart h (toBinMSB (gray c))).length = h := by
    rw [padStart_length, gray_eq_grayPure hc31]
    have := toBinMSB_length_le (grayPure c) h hh (grayPure_lt_two_pow hc)
    omega
  rw [kmIndex, parseBin_append, hlen, parseBin_padStart, parseBin_padStart,
    parseBin_toBinMSB, parseBin_toBinMSB, gray_eq_grayPure hr31,
    gray_eq_grayPure hc31]

/-- Claim C8, counterexample: the claim as stated (over every variable
count) fails at `n = 63`, `t = 2^30`: the horizontal group width is 32,
and the ToInt32 wrap of `gray` sends both column `2^31 - 1` and column
`2^31` of row 0 to the label of `2^30`, so two distinct cells address the
same truth-table index (both parsed values are `2^30`, far below `2^53`,
so `parseInt`'s double result is exact here). -/
theorem karnaugh_collision_counterexample :
    2 ^ 30 < 2 ^ 63 ∧
    ¬ ∃! rc : Nat × Nat, rc.1 < 2 ^ (63 / 2) ∧ rc.2 < 2 ^ (63 - 63 / 2) ∧
      kmIndex (63 / 2) (63 - 63 / 2) rc.1 rc.2 = 2 ^ 30 ∧
      kmCell [] (63 / 2) (63 - 63 / 2) rc.1 rc.2 =
        (([] : List JSVal)[(2 ^ 30 : Nat)]?).getD JSVal.undefined := by
  refine ⟨by norm_num, ?_⟩
  rintro ⟨rc, -, huniq⟩
  have h1 : ((0, 2 ^ 31 - 1) : Nat × Nat) = rc :=
    huniq (0, 2 ^ 31 - 1) ⟨by decide, by decide, by decide, by decide⟩
  have h2 : ((0, 2 ^ 31) : Nat × Nat) = rc :=
    huniq (0, 2 ^ 31) ⟨by decide, by decide, by decide, by decide⟩
  have h12 := h1.trans h2.symm
  exact absurd h12 (by decide)

/-- Claim C8, amended: for every variable count `n ≤ 53` — so that both
axis-group widths stay below the 32-bit wrap of `^`/`>>` in `gray` and
every concatenated label parses to a value below `2^53`, where
`parseInt`'s double result is exact — with vertical group size `⌊n/2⌋`
and horizontal group size `n - ⌊n/2⌋`, every truth-table index is
addressed by exactly one Karnaugh cell: there is exactly one
`(row, column)` pair in range whose concatenated Gray-code labels, read
as one binary number, equal the index, and that cell displays that row's
output bit. -/
theorem karnaugh_map_complete (n t : Nat) (outputs : List JSVal)
    (hn53 : n ≤ 53) (ht : t < 2 ^ n) :
    ∃! rc : Nat × Nat, rc.1 < 2 ^ (n / 2) ∧ rc.2 < 2 ^ (n - n / 2) ∧
      kmIndex (n / 2) (n - n / 2) rc.1 rc.2 = t ∧
      kmCell outputs (n / 2) (n - n / 2) rc.1 rc.2 =
        (outputs[t]?).getD JSVal.undefined := by
  rcases Nat.eq_zero_or_pos n with rfl | hn
  · have ht0 : t = 0 := by
      norm_num at ht
      omega
    subst ht0
    refine ⟨(0, 0), ⟨by norm_num, by norm_num, by decide, ?_⟩, ?_⟩
    · rw [kmCell, show kmIndex (0 / 2) (0 - 0 / 2) 0 0 = 0 from by decide]
    · rintro ⟨r', c'⟩ ⟨hr', hc', -, -⟩
      norm_num at hr' hc'
      simp [hr', hc']
  · have hh : 1 ≤ n - n / 2 := by omega
    have hh31 : n - n / 2 ≤ 31 := by omega
    have hv31 : 2 ^ (n / 2) ≤ 2 ^ 31 :=
      Nat.pow_le_pow_right (by norm_num) (by omega)
    have hvh : 2 ^ (n - n / 2) * 2 ^ (n / 2) = 2 ^ n := by
      rw [← pow_add]
      congr 1
      omega
    have hpos : 0 < 2 ^ (n - n / 2) := pow_pos (by norm_num) _
    have hr0 : t / 2 ^ (n - n / 2) < 2 ^ (n / 2) := by
      apply Nat.div_lt_of_lt_mul
      rw [hvh]
      exact ht
    have hc0 : t % 2 ^ (n - n / 2) < 2 ^ (n - n / 2) := Nat.mod_lt _ hpos
    obtain ⟨r, hr, hgr⟩ := grayPure_surj (n / 2) (t / 2 ^ (n - n / 2)) hr0
    obtain ⟨c, hc, hgc⟩ := grayPure_surj (n - n / 2) (t % 2 ^ (n - n / 2)) hc0
    have hidx : kmIndex (n / 2) (n - n / 2) r c = t := by
      rw [kmIndex_eq _ _ r c hh hc (lt_of_lt_of_le hr hv31) hh31, hgr, hgc,
        Nat.mul_comm (t / 2 ^ (n - n / 2)) (2 ^ (n - n / 2)), Nat.div_add_mod]
    refine ⟨(r, c), ⟨hr, hc, hidx, ?_⟩, ?_⟩
    · rw [kmCell, hidx]
    · rintro ⟨r', c'⟩ ⟨hr', hc', hidx', -⟩
      rw [kmIndex_eq _ _ r' c' hh hc' (lt_of_lt_of_le hr' hv31) hh31] at hidx'
      have hgc' : grayPure c' = t % 2 ^ (n - n / 2) := by
        rw [← hidx', Nat.add_comm, Nat.add_mul_mod_self_right,
          Nat.mod_eq_of_lt (grayPure_lt_two_pow hc')]
      have hgr' : grayPure r' = t / 2 ^ (n - n / 2) := by
        rw [← hidx', add_comm, Nat.add_mul_div_right _ _ hpos,
          Nat.div_eq_of_lt (grayPure_lt_two_pow hc'), Nat.zero_add]
      have e1 : r' = r := grayPure_injective (hgr'.trans hgr.symm)
      have e2 : c' = c := grayPure_injective (hgc'.trans hgc.symm)
      rw [e1, e2]

/-- Claim C8, witness instantiation at `n = 2`, `t = 2`, a concrete output
column. -/
theorem karnaugh_map_complete_witness :
    ∃! rc : Nat × Nat, rc.1 < 2 ^ (2 / 2) ∧ rc.2 < 2 ^ (2 - 2 / 2) ∧
      kmIndex (2 / 2) (2 - 2 / 2) rc.1 rc.2 = 2 ∧
      kmCell [JSVal.str "0", JSVal.str "1", JSVal.str "1", JSVal.str "0"]
        (2 / 2) (2 - 2 / 2) rc.1 rc.2 =
        (([JSVal.str "0", JSVal.str "1", JSVal.str "1", JSVal.str "0"] :
          List JSVal)[2]?).getD JSVal.undefined :=
  karnaugh_map_complete 2 2 [JSVal.str "0", JSVal.str "1", JSVal.str "1",
    JSVal.str "0"] (by decide) (by decide)

end TruthTrick
